import Mathlib

/-!
Verification development for the Event_Room_Scheduler repository.

The heart of the repository is `parsePdf` in `server.js`: a line-oriented
parser that turns the extracted text of a timetable PDF into a list of
sections, each carrying header metadata, a set of room numbers and a list
of schedule entries.  This file embeds that parser (and the storage-time
room typing rule) as executable Lean definitions, mirroring each JavaScript
regular expression by an explicit deterministic scanner over character
lists, and proves the stated properties about it.

Parts of the system described by the specification are not present in the
JavaScript sources (the geometry-mode mapper, the multi-family header
recognizer and the time-range free-room query); those are modelled directly
from the specification text and are marked as such in their doc comments.
-/

namespace EventRoomScheduler

/-! ### Character classes (models of the JS regex classes on ASCII input) -/

/-- Model of the JS `\s` class (restricted to the ASCII whitespace actually
produced by `pdf-parse` text dumps). -/
def wsChar (c : Char) : Bool :=
  c = ' ' || c = '\t' || c = '\n' || c = '\r' || c = '\x0b' || c = '\x0c'

/-- Model of the JS `\w` class `[A-Za-z0-9_]`. -/
def wordChar (c : Char) : Bool :=
  c.isAlpha || c.isDigit || c = '_'

/-- Case-insensitive character comparison (the `/i` regex flag). -/
def eqCI (a b : Char) : Bool := a.toUpper = b.toUpper

/-- Match a literal case-insensitively; return the remainder on success. -/
def litCI : List Char → List Char → Option (List Char)
  | [], cs => some cs
  | _ :: _, [] => none
  | p :: ps, c :: cs => if eqCI p c then litCI ps cs else none

/-- `\s+` (greedy): require at least one whitespace char, consume the
maximal run. -/
def ws1 : List Char → Option (List Char)
  | [] => none
  | c :: rest => if wsChar c then some (rest.dropWhile wsChar) else none

/-- `\s*` (greedy): consume the maximal whitespace run. -/
def wsMany (cs : List Char) : List Char := cs.dropWhile wsChar

/-- `(\w+)` (greedy): require at least one word char, capture the maximal
run, return it with the remainder. -/
def word1 : List Char → Option (List Char × List Char)
  | [] => none
  | c :: rest =>
      if wordChar c then some (c :: rest.takeWhile wordChar, rest.dropWhile wordChar)
      else none

/-- `(\d+\w*)` (both greedy): the two greedy pieces together capture the
maximal word-character run that starts with a digit. -/
def digitWord : List Char → Option (List Char × List Char)
  | [] => none
  | c :: rest =>
      if c.isDigit then some (c :: rest.takeWhile wordChar, rest.dropWhile wordChar)
      else none

/-! ### String utilities mirroring the JS string methods used by the code -/

/-- Model of JS `String.prototype.trim`. -/
def trimChars (cs : List Char) : List Char :=
  ((cs.dropWhile wsChar).reverse.dropWhile wsChar).reverse

/-- `trim` packaged on `String`. -/
def trimS (s : String) : String := String.mk (trimChars s.toList)

/-- Uppercase a string character by character (JS `toUpperCase` on ASCII). -/
def upStr (s : String) : String := String.mk (s.toList.map Char.toUpper)

/-- Split on a separator character (JS `split('\n')`), keeping empty pieces. -/
def splitOnCharGo (sep : Char) : List Char → List Char → List (List Char)
  | acc, [] => [acc.reverse]
  | acc, c :: cs =>
      if c = sep then acc.reverse :: splitOnCharGo sep [] cs
      else splitOnCharGo sep (c :: acc) cs

def splitOnChar (sep : Char) (cs : List Char) : List (List Char) :=
  splitOnCharGo sep [] cs

/-- Split on whitespace runs, dropping empty tokens: the behaviour of JS
`split(/\s+/).filter(Boolean)` and of `split(/\s+/)` on a trimmed string. -/
def splitWsGo : List Char → List Char → List (List Char)
  | acc, [] => if acc.isEmpty then [] else [acc.reverse]
  | acc, c :: cs =>
      if wsChar c then
        if acc.isEmpty then splitWsGo [] cs else acc.reverse :: splitWsGo [] cs
      else splitWsGo (c :: acc) cs

def splitWs (s : String) : List String :=
  (splitWsGo [] s.toList).map String.mk

/-- JS `s.split(/\s+/)` on a trimmed string: identical to `splitWs` except
that the empty string yields `[""]` (one empty token), which the code then
pushes as an entry subject. -/
def jsSplitWs (s : String) : List String :=
  if s = "" then [""] else splitWs s

/-- Case-insensitive substring containment (an unanchored `/pat/i` test). -/
def containsTokCI (pat : List Char) : List Char → Bool
  | [] => false
  | c :: cs => (litCI pat (c :: cs)).isSome || containsTokCI pat cs

/-! ### The header / row regexes of `parsePdf`, as deterministic scanners

Each JS regex used by `parsePdf` is deterministic on its inputs: every
greedy quantifier is followed by a character it can never match, so no
backtracking is observable and the regex is faithfully modelled by a
maximal-munch scanner tried at each start position (leftmost match). -/

/-- `/DEPARTMENT\s+OF\s+(.+)/i` tried at one start position.  The capture
`(.+)` takes the whole remainder of the (newline-free) line and must be
non-empty. -/
def deptAt (cs : List Char) : Option (List Char) :=
  (litCI "DEPARTMENT".toList cs).bind fun r1 =>
  (ws1 r1).bind fun r2 =>
  (litCI "OF".toList r2).bind fun r3 =>
  (ws1 r3).bind fun r4 =>
  if r4.isEmpty then none else some r4

def scanDept : List Char → Option (List Char)
  | [] => none
  | c :: cs =>
      match deptAt (c :: cs) with
      | some r => some r
      | none => scanDept cs

/-- `line.match(/DEPARTMENT\s+OF\s+(.+)/i)` followed by `[1].trim()`. -/
def deptMatchF (l : String) : Option String :=
  (scanDept l.toList).map fun g => trimS (String.mk g)

/-- `/(\w+)\s+SEMESTER\s*\[SECTION[-\s]*(\w+)\]/i` tried at one start
position; returns the two captures. -/
def semAt (cs : List Char) : Option (List Char × List Char) :=
  match word1 cs with
  | none => none
  | some (w, r1) =>
    match ws1 r1 with
    | none => none
    | some r2 =>
      match litCI "SEMESTER".toList r2 with
      | none => none
      | some r3 =>
        match litCI "[SECTION".toList (wsMany r3) with
        | none => none
        | some r5 =>
          match word1 (r5.dropWhile fun c => c = '-' || wsChar c) with
          | none => none
          | some (w2, r7) =>
            match r7 with
            | ']' :: _ => some (w, w2)
            | _ => none

def scanSem : List Char → Option (List Char × List Char)
  | [] => none
  | c :: cs =>
      match semAt (c :: cs) with
      | some r => some r
      | none => scanSem cs

/-- `line.match(/(\w+)\s+SEMESTER\s*\[SECTION[-\s]*(\w+)\]/i)`. -/
def semMatchF (l : String) : Option (String × String) :=
  (scanSem l.toList).map fun p => (String.mk p.1, String.mk p.2)

/-- `/Room\s*No[.:]\s*(\d+\w*)/i` tried at one start position. -/
def roomAt (cs : List Char) : Option (List Char) :=
  (litCI "ROOM".toList cs).bind fun r1 =>
  (litCI "NO".toList (wsMany r1)).bind fun r3 =>
  match r3 with
  | c :: r4 =>
      if c = '.' || c = ':' then (digitWord (wsMany r4)).map Prod.fst
      else none
  | [] => none

def scanRoom : List Char → Option (List Char)
  | [] => none
  | c :: cs =>
      match roomAt (c :: cs) with
      | some r => some r
      | none => scanRoom cs

/-- `line.match(/Room\s*No[.:]\s*(\d+\w*)/i)`. -/
def roomHeaderF (l : String) : Option String :=
  (scanRoom l.toList).map String.mk

/-- The day abbreviation table of `parsePdf` (no SUN in this version). -/
def dayName : String → Option String
  | "MON" => some "Monday"
  | "TUE" => some "Tuesday"
  | "WED" => some "Wednesday"
  | "THU" => some "Thursday"
  | "FRI" => some "Friday"
  | "SAT" => some "Saturday"
  | _ => none

/-- `line.match(/^(MON|TUE|WED|THU|FRI|SAT)\b/i)`: three-letter day code at
the start of the line, followed by a word boundary.  On success returns the
mapped day name and `line.substring(3).trim()`. -/
def dayPfxF (l : String) : Option (String × String) :=
  match l.toList with
  | a :: b :: c :: rest =>
      match dayName (String.mk [a.toUpper, b.toUpper, c.toUpper]) with
      | none => none
      | some d =>
          match rest with
          | [] => some (d, "")
          | r :: _ => if wordChar r then none else some (d, trimS (String.mk rest))
  | _ => none

/-- `/^(HOUR|HEAD,|Theory|Laboratory|ACADEMIC|SCHOOL|TIME-TABLE|w\.e\.f)/i`. -/
def nonContentPats : List String :=
  ["HOUR", "HEAD,", "Theory", "Laboratory", "ACADEMIC", "SCHOOL", "TIME-TABLE", "w.e.f"]

def isNonContent (l : String) : Bool :=
  nonContentPats.any fun p => (litCI p.toList l.toList).isSome

/-- `/^\d{2}\.\d{2}\s*(AM|PM)/i`. -/
def isTimeLine (l : String) : Bool :=
  match l.toList with
  | a :: b :: c :: d :: e :: rest =>
      a.isDigit && b.isDigit && c = '.' && d.isDigit && e.isDigit &&
        (let r := wsMany rest
         (litCI "AM".toList r).isSome || (litCI "PM".toList r).isSome)
  | _ => false

/-- The `skipWords` set of `parsePdf` (matched against the full uppercased
line). -/
def skipWords : List String :=
  ["B", "R", "E", "A", "K", "L", "U", "N", "C", "H", "BREAK", "LUNCH", "HOUR", "TO", "AM", "PM"]

def isSkipWord (l : String) : Bool := skipWords.contains (upStr l)

/-- The `Room\s*No` alternative of the continuation-stop regex, as substring
containment. -/
def containsRoomNoAt (cs : List Char) : Bool :=
  ((litCI "ROOM".toList cs).bind fun r => litCI "NO".toList (wsMany r)).isSome

def containsRoomNo : List Char → Bool
  | [] => false
  | c :: cs => containsRoomNoAt (c :: cs) || containsRoomNo cs

/-- The continuation-scan terminator of the day branch: a new day row, the
stop regex `/DEPARTMENT|SEMESTER|Room\s*No|HOUR|HEAD,|Theory|Laboratory|ACADEMIC|SCHOOL/i`,
or a clock-time line. -/
def isDayStop (l : String) : Bool :=
  (dayPfxF l).isSome ||
  containsTokCI "DEPARTMENT".toList l.toList ||
  containsTokCI "SEMESTER".toList l.toList ||
  containsRoomNo l.toList ||
  containsTokCI "HOUR".toList l.toList ||
  containsTokCI "HEAD,".toList l.toList ||
  containsTokCI "Theory".toList l.toList ||
  containsTokCI "Laboratory".toList l.toList ||
  containsTokCI "ACADEMIC".toList l.toList ||
  containsTokCI "SCHOOL".toList l.toList ||
  isTimeLine l

/-- The core `R\.No[.:]\s*(\d+\w*)\)` of a parenthesised room reference
(everything after the opening parenthesis); returns the capture and the
remainder after the closing parenthesis. -/
def parenRoomCore (cs : List Char) : Option (List Char × List Char) :=
  (litCI "R".toList cs).bind fun r1 =>
  match r1 with
  | '.' :: r2 =>
      (litCI "NO".toList r2).bind fun r3 =>
      match r3 with
      | c :: r4 =>
          if c = '.' || c = ':' then
            (digitWord (wsMany r4)).bind fun p =>
            match p.2 with
            | ')' :: rest => some (p.1, rest)
            | _ => none
          else none
      | [] => none
  | _ => none

/-- `\(R\.No[.:]\s*(\d+\w*)\)` anchored at the current position. -/
def parenRoom (cs : List Char) : Option (List Char × List Char) :=
  match cs with
  | '(' :: rest => parenRoomCore rest
  | _ => none

/-- `dl.match(/^\(R\.No[.:]\s*(\d+\w*)\)$/i)`: a line that is exactly one
parenthesised room reference. -/
def pureRoomF (dl : String) : Option String :=
  match dl.toList with
  | '(' :: cs =>
      (parenRoomCore cs).bind fun p =>
      match p.2 with
      | [] => some (String.mk p.1)
      | _ => none
  | _ => none

/-- `dl.match(/^(.+?)\s*\(R\.No[.:]\s*(\d+\w*)\)(.*)$/i)`.  The lazy `(.+?)`
grows one character at a time; at each size the greedy `\s*` and the
parenthesised room pattern are tried.  Returns (capture 1, capture 2,
capture 3). -/
def inlineGo (acc : List Char) : List Char → Option (String × String × String)
  | [] => none
  | c :: cs =>
      match (if acc.isEmpty then none
             else (parenRoom (wsMany (c :: cs))).map fun p =>
               (String.mk acc.reverse, String.mk p.1, String.mk p.2)) with
      | some v => some v
      | none => inlineGo (c :: acc) cs

def inlineRoomF (dl : String) : Option (String × String × String) :=
  inlineGo [] dl.toList

/-- `dl.match(/^(\w+)\s+LAB$/i)`: a two-word `<X> LAB` subject line. -/
def labF (dl : String) : Bool :=
  match word1 dl.toList with
  | none => false
  | some (_, r1) =>
      match ws1 r1 with
      | none => false
      | some r2 =>
          match litCI "LAB".toList r2 with
          | some [] => true
          | _ => false

/-! ### The data model and parser state of `parsePdf` -/

/-- One schedule entry as pushed by `parsePdf`. -/
structure Entry where
  day : String
  time_slot : String
  room_number : String
  subject : String
  deriving Repr, DecidableEq

/-- One output section of `parsePdf`. -/
structure Section where
  department : String
  year_sem : String
  sectionId : String
  default_room : String
  rooms : List String
  entries : List Entry
  deriving Repr, DecidableEq

/-- A `{subject, room}` pair of the per-day `slotEntries` list. -/
structure SlotPair where
  subject : String
  room : String
  deriving Repr, DecidableEq

/-- The mutable variables of `parsePdf`, plus the output list. -/
structure St where
  department : String
  yearSem : String
  sectionId : String
  defaultRoom : String
  rooms : List String
  entries : List Entry
  inSection : Bool
  sections : List Section
  deriving Repr, DecidableEq

def initSt : St := ⟨"", "", "", "", [], [], false, []⟩

/-- `rooms.add(r)` on a JS `Set` (insertion-ordered, deduplicating). -/
def addRoom (rooms : List String) (r : String) : List String :=
  if rooms.contains r then rooms else rooms ++ [r]

/-- The canonical six time-slot strings. -/
def timeSlots : List String :=
  ["09:00-09:55", "09:55-10:50", "11:10-12:05", "12:05-01:00", "02:15-03:10", "03:10-04:05"]

def mkSection (st : St) : Section :=
  ⟨st.department, st.yearSem, st.sectionId, st.defaultRoom, st.rooms, st.entries⟩

/-- `saveSection()`: push the in-progress section when `inSection` holds and
there is at least one entry; always clear `entries`. -/
def saveSection (st : St) : St :=
  if st.inSection && !st.entries.isEmpty then
    { st with sections := st.sections ++ [mkSection st], entries := [] }
  else
    { st with entries := [] }

/-- `slotEntries[slotEntries.length - 1].room = r` on a non-empty list. -/
def setLastRoom : List SlotPair → String → List SlotPair
  | [], _ => []
  | [p], r => [⟨p.subject, r⟩]
  | p :: q :: ps, r => p :: setLastRoom (q :: ps) r

/-- The pairs pushed by the inline-room branch: the subjects before the
parenthesised reference take the default room except the last, which takes
the referenced room; the subjects after it take the default room. -/
def inlinePushes (defaultRoom g1 roomNum g3 : String) : List SlotPair :=
  let before := jsSplitWs (trimS g1)
  let afterS := trimS g3
  before.dropLast.map (fun s => SlotPair.mk s defaultRoom) ++
  (match before.getLast? with
   | some s => [SlotPair.mk s roomNum]
   | none => []) ++
  (if afterS = "" then []
   else (splitWs afterS).map fun s => SlotPair.mk s defaultRoom)

/-- Classification of one collected day line: pure room-reference line,
inline room reference, two-word `<X> LAB` subject, or whitespace-separated
bare subjects.  Threads the `(slotEntries, rooms)` accumulator exactly as
the `for (const dl of dayLines)` loop body does. -/
def classifyDayLine (defaultRoom : String) (acc : List SlotPair × List String)
    (dl : String) : List SlotPair × List String :=
  match pureRoomF dl with
  | some r =>
      if acc.1.isEmpty then acc
      else (setLastRoom acc.1 r, addRoom acc.2 r)
  | none =>
    match inlineRoomF dl with
    | some (g1, roomNum, g3) =>
        (acc.1 ++ inlinePushes defaultRoom g1 roomNum g3, addRoom acc.2 roomNum)
    | none =>
        if labF dl then (acc.1 ++ [SlotPair.mk dl defaultRoom], acc.2)
        else (acc.1 ++ (splitWs dl).map fun s => SlotPair.mk s defaultRoom, acc.2)

/-- The positional zip at the end of the day branch:
`for (let j = 0; j < slotEntries.length && j < timeSlots.length; j++)`. -/
def mapDaySlots (day : String) (ses : List SlotPair) : List Entry :=
  (timeSlots.zip ses).map fun p => Entry.mk day p.1 p.2.room p.2.subject

/-- The continuation scan of the day branch: consume lines until a stop
line; skip-word lines are consumed but not collected. -/
def dayTake : List String → List String × List String
  | [] => ([], [])
  | n :: ns =>
      if isDayStop n then ([], n :: ns)
      else
        let p := dayTake ns
        (if isSkipWord n then p.1 else n :: p.1, p.2)

/-- The whole day branch, given the day name, the remainder of the day line
and the collected continuation lines. -/
def processDay (st : St) (day : String) (restOfLine : String)
    (dayLines : List String) : St :=
  let dls := (if restOfLine = "" then [] else [restOfLine]) ++ dayLines
  let acc := dls.foldl (classifyDayLine st.defaultRoom) ([], st.rooms)
  { st with rooms := acc.2, entries := st.entries ++ mapDaySlots day acc.1 }

/-- One iteration of the main `for` loop of `parsePdf`: process line `l`,
possibly consuming continuation lines from `rest`. -/
def step (st : St) (l : String) (rest : List String) : St × List String :=
  match deptMatchF l with
  | some d =>
      ({ saveSection st with department := d, rooms := [], inSection := false }, rest)
  | none =>
    match semMatchF l with
    | some g =>
        ({ saveSection st with
            yearSem := trimS g.1 ++ " Semester"
            sectionId := trimS g.2
            inSection := true }, rest)
    | none =>
      match roomHeaderF l with
      | some r => ({ st with defaultRoom := r, rooms := addRoom st.rooms r }, rest)
      | none =>
          if isNonContent l || isTimeLine l || isSkipWord l then (st, rest)
          else
            match dayPfxF l with
            | none => (st, rest)
            | some d =>
                if st.defaultRoom = "" then (st, rest)
                else
                  let p := dayTake rest
                  (processDay st d.1 d.2 p.1, p.2)

/-- The main loop, fuelled by the number of remaining lines (each iteration
consumes at least the current line, so `lines.length` fuel always
suffices). -/
def runF : Nat → St → List String → St
  | 0, st, _ => st
  | _ + 1, st, [] => st
  | f + 1, st, l :: rest =>
      let p := step st l rest
      runF f p.1 p.2

/-- `text.split('\n').map(l => l.trim()).filter(Boolean)`. -/
def preprocessLines (text : String) : List String :=
  (((splitOnChar '\n' text.toList).map fun cs => String.mk (trimChars cs)).filter
    fun l => l ≠ "")

/-- The full line-mode parser `parsePdf`. -/
def parsePdf (text : String) : List Section :=
  let ls := preprocessLines text
  (saveSection (runF ls.length initSt ls)).sections

/-- The storage-time room typing rule of the upload endpoint:
`insertRoom.run(room, /lab/i.test(room) ? 'lab' : 'classroom')`. -/
def labTest (room : String) : Bool := containsTokCI "LAB".toList room.toList

def roomType (room : String) : String :=
  if labTest room then "lab" else "classroom"

/-! ### Spec-modelled components

The README and the specification describe a deployed revision of the
parser/API whose code is not in the checked-in sources: a free-room query
over a wall-clock `[from,to)` range, a geometry-mode row-to-entry mapper
with a 2-hour span rule, and a multi-family header recognizer.  The
definitions below are modelled from the specification text. -/

/-- Modelled from the spec: the free-room query converts a wall-clock
boundary `"HH:MM"` to minutes since midnight, treating any parsed hour in
1-4 as PM (+12h), since slot labels use a 12-hour clock without AM/PM
markers. -/
def digitsVal (cs : List Char) : Nat :=
  cs.foldl (fun n c => n * 10 + (c.toNat - 48)) 0

def toMinutes (s : String) : Nat :=
  match splitOnChar ':' s.toList with
  | [hs, ms] =>
      let h := digitsVal hs
      let m := digitsVal ms
      let h2 := if 1 ≤ h && h ≤ 4 then h + 12 else h
      h2 * 60 + m
  | _ => 0

/-- Modelled from the spec: the `(start, end)` minute bounds of a canonical
slot string, read off its two halves with the same hour rule. -/
def slotBounds (slot : String) : Nat × Nat :=
  match splitOnChar '-' slot.toList with
  | [a, b] => (toMinutes (String.mk a), toMinutes (String.mk b))
  | _ => (0, 0)

/-- Modelled from the spec: the canonical slots overlapping a requested
range, by `slot.start < to AND slot.end > from`. -/
def overlapSlots (tFrom tTo : String) : List String :=
  timeSlots.filter fun s =>
    decide ((slotBounds s).1 < toMinutes tTo) && decide ((slotBounds s).2 > toMinutes tFrom)

/-- Modelled from the spec: the rooms occupied by some schedule entry of the
requested day in some overlapping slot. -/
def occupiedRooms (day tFrom tTo : String) (entries : List Entry) : List String :=
  (entries.filter fun e => e.day == day && (overlapSlots tFrom tTo).contains e.time_slot).map
    fun e => e.room_number

/-- Modelled from the spec: a room is free iff it appears in zero schedule
entries across all overlapping slots for that day. -/
def freeRoomsQ (day tFrom tTo : String) (allRooms : List String)
    (entries : List Entry) : List String :=
  allRooms.filter fun r => !(occupiedRooms day tFrom tTo entries).contains r

/-- Modelled from the spec (geometry mode): one of the six columns of a day
row, carrying its accumulated subject text and its optional per-column room
override. -/
structure Col where
  subject : String
  override : Option String
  deriving Repr, DecidableEq

def blankCol : Col := ⟨"", none⟩

/-- Modelled from the spec: a subject triggers the 2-hour span rule when it
matches `LAB` as a whole word or equals exactly `QAVA` or `CP`. -/
def isTwoHour (s : String) : Bool :=
  (splitWs (upStr s)).contains "LAB" || s = "QAVA" || s = "CP"

/-- Modelled from the spec (geometry mode): build one `(column index,
subject, room)` triple per occupied column; for a 2-hour subject whose next
column is empty, duplicate the entry into the next column (using the next
column's own room override if present, else this entry's room) and mark
that column as filled so it is not reprocessed. -/
def expandCols (defaultRoom : String) : Nat → List Col → List (Nat × String × String)
  | _, [] => []
  | k, c :: rest =>
      if c.subject = "" then expandCols defaultRoom (k + 1) rest
      else
        let room := c.override.getD defaultRoom
        if isTwoHour c.subject then
          match rest with
          | [] => [(k, c.subject, room)]
          | c2 :: rest2 =>
              if c2.subject = "" then
                (k, c.subject, room) :: (k + 1, c.subject, c2.override.getD room) ::
                  expandCols defaultRoom (k + 2) rest2
              else (k, c.subject, room) :: expandCols defaultRoom (k + 1) (c2 :: rest2)
        else (k, c.subject, room) :: expandCols defaultRoom (k + 1) rest

/-- Modelled from the spec (geometry mode): the schedule entries of one day
row, mapping each column index to its canonical slot string. -/
def geomEntries (day defaultRoom : String) (cols : List Col) : List Entry :=
  (expandCols defaultRoom 0 cols).filterMap fun t =>
    (timeSlots.get? t.1).map fun ts => Entry.mk day ts t.2.2 t.2.1

/-- Modelled from the spec (header recognizer): merge adjacent roman-numeral
fragments such as `"I" "V"` into `"IV"` before matching. -/
def isRoman (s : String) : Bool :=
  !s.isEmpty && s.toList.all fun c =>
    c.toUpper = 'I' || c.toUpper = 'V' || c.toUpper = 'X'

def normRomanGo (cur : String) : List String → List String
  | [] => [cur]
  | t :: ts =>
      if isRoman cur && isRoman t then normRomanGo (cur ++ t) ts
      else cur :: normRomanGo t ts

def normRoman : List String → List String
  | [] => []
  | t :: ts => normRomanGo t ts

/-- Tokenize a page for the header recognizer: whitespace-split and
roman-normalize. -/
def hdrTokens (page : String) : List String := normRoman (splitWs page)

def listPfx : List Char → List Char → Bool
  | [], _ => true
  | _ :: _, [] => false
  | p :: ps, c :: cs => p = c && listPfx ps cs

def upStarts (pre s : String) : Bool := listPfx pre.toList (upStr s).toList

def upEnds (suf s : String) : Bool :=
  listPfx suf.toList.reverse (upStr s).toList.reverse

def strDrop (n : Nat) (s : String) : String := String.mk (s.toList.drop n)

def strDropLast (n : Nat) (s : String) : String :=
  String.mk ((s.toList.reverse.drop n).reverse)

/-- Modelled from the spec: bracketed family `<SEM> SEMESTER [SECTION-<SEC>]`. -/
def hdrBracketed : List String → Option (String × String)
  | s :: w :: t :: rest =>
      if upStr w = "SEMESTER" && upStarts "[SECTION-" t && upEnds "]" t then
        some (s ++ " Semester", strDropLast 1 (strDrop 9 t))
      else hdrBracketed (w :: t :: rest)
  | _ => none

/-- Modelled from the spec: parenthesized family `<SEM> SEMESTER
(SECTION-<SEC>)` or `<SEM> SEMESTER (<SEC>)`. -/
def hdrParen : List String → Option (String × String)
  | s :: w :: t :: rest =>
      if upStr w = "SEMESTER" && upStarts "(" t && upEnds ")" t then
        let inner := strDropLast 1 (strDrop 1 t)
        let sec := if upStarts "SECTION-" inner then strDrop 8 inner else inner
        some (s ++ " Semester", sec)
      else hdrParen (w :: t :: rest)
  | _ => none

def isDashTok (t : String) : Bool := t = "-" || t = "–"

/-- Modelled from the spec: dash family `<SEM> Sem – Section – <SEC>`. -/
def hdrDash : List String → Option (String × String)
  | s :: w :: d1 :: x :: d2 :: sec :: rest =>
      if (upStr w = "SEM" || upStr w = "SEMESTER") && isDashTok d1 &&
          upStr x = "SECTION" && isDashTok d2 then
        some (s ++ " Semester", sec)
      else hdrDash (w :: d1 :: x :: d2 :: sec :: rest)
  | _ => none

/-- Modelled from the spec: a separate `Section-<SEC>` token occurring
anywhere on the page. -/
def findSectionTok : List String → Option String
  | [] => none
  | t :: ts =>
      if upStarts "SECTION-" t then some (strDrop 8 t) else findSectionTok ts

/-- Modelled from the spec: prose family `B.Tech <SEM> Semester` with an
optional separate `Section-<SEC>` elsewhere on the page. -/
def hdrProseGo : List String → Option String
  | b :: s :: w :: rest =>
      if upStr b = "B.TECH" && (upStr w = "SEMESTER" || upStr w = "SEM") then some s
      else hdrProseGo (s :: w :: rest)
  | _ => none

def hdrProse (toks : List String) : Option (String × String) :=
  (hdrProseGo toks).map fun s =>
    (s ++ " Semester", (findSectionTok toks).getD "")

/-- Modelled from the spec: bracket-only family `[ <SEM> SEMESTER ]`, with
the section synthesized as `<department-abbreviation>-1`. -/
def hdrBracketOnly (deptAbbrev : String) : List String → Option (String × String)
  | o :: s :: w :: c :: rest =>
      if o = "[" && upStr w = "SEMESTER" && c = "]" then
        some (s ++ " Semester", deptAbbrev ++ "-1")
      else hdrBracketOnly deptAbbrev (s :: w :: c :: rest)
  | _ => none

def allDigits (t : String) : Bool := !t.isEmpty && t.toList.all Char.isDigit

/-- Modelled from the spec: generic fallback, any `<SEM> Sem(ester)`
co-occurring with a `Section-<X>` token or a bare trailing number. -/
def hdrGenericGo : List String → Option String
  | s :: w :: rest =>
      if upStarts "SEM" w then some s else hdrGenericGo (w :: rest)
  | _ => none

def hdrGeneric (toks : List String) : Option (String × String) :=
  match hdrGenericGo toks with
  | none => none
  | some s =>
      match findSectionTok toks with
      | some sec => some (s ++ " Semester", sec)
      | none =>
          match toks.getLast? with
          | some t => if allDigits t then some (s ++ " Semester", t) else none
          | none => none

/-- Modelled from the spec: the header recognizer tries the format families
in priority order, first match winning. -/
def headerRecognize (deptAbbrev page : String) : Option (String × String) :=
  let toks := hdrTokens page
  match hdrBracketed toks with
  | some r => some r
  | none =>
    match hdrParen toks with
    | some r => some r
    | none =>
      match hdrDash toks with
      | some r => some r
      | none =>
        match hdrProse toks with
        | some r => some r
        | none =>
          match hdrBracketOnly deptAbbrev toks with
          | some r => some r
          | none => hdrGeneric toks

/-- The section-emission invariant of the parser state: while a section is
in progress its identifier is non-empty, and every section already emitted
has a non-empty identifier and a non-empty entry list. -/
def InvSt (st : St) : Prop :=
  (st.inSection = true → st.sectionId ≠ "") ∧
  ∀ S ∈ st.sections, S.sectionId ≠ "" ∧ S.entries ≠ []

/-! ### Helper lemmas -/

theorem mem_takeWhile_wordChar (cs : List Char) (c : Char)
    (h : c ∈ cs.takeWhile wordChar) : wordChar c = true :=
  List.mem_takeWhile_imp h

theorem word1_shape (cs w r : List Char) (h : word1 cs = some (w, r)) :
    w ≠ [] ∧ ∀ c ∈ w, wordChar c = true := by
  cases cs with
  | nil => simp [word1] at h
  | cons a t =>
      simp only [word1] at h
      by_cases ha : wordChar a
      · rw [if_pos ha] at h
        injection h with h
        injection h with h1 h2
        subst h1
        refine ⟨by simp, ?_⟩
        intro c hc
        rcases List.mem_cons.mp hc with rfl | hc
        · exact ha
        · exact mem_takeWhile_wordChar t c hc
      · rw [if_neg ha] at h
        simp at h

theorem wordChar_not_ws (c : Char) (h : wordChar c = true) : wsChar c = false := by
  by_contra h2
  have h3 : wsChar c = true := by
    cases hb : wsChar c
    · exact absurd hb h2
    · rfl
  simp only [wsChar, Bool.or_eq_true, decide_eq_true_eq] at h3
  rcases h3 with ((((h3 | h3) | h3) | h3) | h3) | h3 <;> subst h3 <;>
    exact absurd h (by decide)

theorem dropWhile_all_false (p : Char → Bool) (l : List Char)
    (h : ∀ c ∈ l, p c = false) : l.dropWhile p = l := by
  cases l with
  | nil => rfl
  | cons a t =>
      have ha := h a (List.mem_cons_self a t)
      simp [List.dropWhile, ha]

theorem trimChars_all_word (cs : List Char) (hw : ∀ c ∈ cs, wordChar c = true) :
    trimChars cs = cs := by
  have hnw : ∀ c ∈ cs, wsChar c = false := fun c hc => wordChar_not_ws c (hw c hc)
  unfold trimChars
  rw [dropWhile_all_false _ _ hnw, dropWhile_all_false, List.reverse_reverse]
  intro c hc
  exact hnw _ (List.mem_reverse.mp hc)

theorem mk_ne_empty (c : Char) (cs : List Char) : String.mk (c :: cs) ≠ "" := by
  intro h
  have := congrArg String.data h
  simp at this

theorem semAt_sec_shape (cs w w2 : List Char) (h : semAt cs = some (w, w2)) :
    w2 ≠ [] ∧ ∀ c ∈ w2, wordChar c = true := by
  unfold semAt at h
  split at h
  · exact absurd h (by simp)
  · split at h
    · exact absurd h (by simp)
    · split at h
      · exact absurd h (by simp)
      · split at h
        · exact absurd h (by simp)
        · split at h
          · exact absurd h (by simp)
          · rename_i r5 w2' r7 hw2
            split at h
            · injection h with h
              injection h with h1 h2
              subst h2
              exact word1_shape _ _ _ hw2
            · exact absurd h (by simp)

theorem scanSem_sec_shape (cs w w2 : List Char) (h : scanSem cs = some (w, w2)) :
    w2 ≠ [] ∧ ∀ c ∈ w2, wordChar c = true := by
  induction cs with
  | nil => simp [scanSem] at h
  | cons a t ih =>
      simp only [scanSem] at h
      split at h
      · rename_i p hp
        injection h with h
        subst h
        exact semAt_sec_shape _ _ _ hp
      · exact ih h

theorem semMatchF_sec_ne (l : String) (g : String × String)
    (h : semMatchF l = some g) : trimS g.2 ≠ "" := by
  unfold semMatchF at h
  cases hs : scanSem l.toList with
  | none => rw [hs] at h; simp at h
  | some p =>
      rw [hs] at h
      injection h with h
      subst h
      obtain ⟨hne, hword⟩ := scanSem_sec_shape _ _ _ hs
      cases hp : p.2 with
      | nil => exact absurd hp hne
      | cons c t =>
          show trimS (String.mk p.2) ≠ ""
          unfold trimS
          have hdata : (String.mk p.2).toList = p.2 := rfl
          rw [hdata, trimChars_all_word _ hword, hp]
          exact mk_ne_empty c t

theorem setLastRoom_length (l : List SlotPair) (r : String) :
    (setLastRoom l r).length = l.length := by
  induction l with
  | nil => rfl
  | cons p t ih =>
      cases t with
      | nil => rfl
      | cons q ps => simpa [setLastRoom] using ih

theorem setLastRoom_append (init : List SlotPair) (p : SlotPair) (r : String) :
    setLastRoom (init ++ [p]) r = init ++ [⟨p.subject, r⟩] := by
  induction init with
  | nil => rfl
  | cons a t ih =>
      cases t with
      | nil => simp [setLastRoom]
      | cons b ps => simpa [setLastRoom] using ih

theorem mem_addRoom (rooms : List String) (a r : String) (h : a ∈ rooms) :
    a ∈ addRoom rooms r := by
  unfold addRoom
  split
  · exact h
  · exact List.mem_append_left _ h

theorem self_mem_addRoom (rooms : List String) (r : String) : r ∈ addRoom rooms r := by
  unfold addRoom
  split
  · rename_i h
    exact List.elem_iff.mp h
  · exact List.mem_append_right _ (List.mem_singleton.mpr rfl)

theorem classifyDayLine_rooms_mono (defR : String) (acc : List SlotPair × List String)
    (dl r : String) (h : r ∈ acc.2) : r ∈ (classifyDayLine defR acc dl).2 := by
  unfold classifyDayLine
  split
  · split
    · exact h
    · exact mem_addRoom _ _ _ h
  · split
    · exact mem_addRoom _ _ _ h
    · split
      · exact h
      · exact h

theorem foldl_classify_rooms_mono (defR : String) (dls : List String)
    (acc : List SlotPair × List String) (r : String) (h : r ∈ acc.2) :
    r ∈ (dls.foldl (classifyDayLine defR) acc).2 := by
  induction dls generalizing acc with
  | nil => exact h
  | cons dl t ih =>
      exact ih _ (classifyDayLine_rooms_mono defR acc dl r h)

theorem zip_map_get {α β γ : Type} (f : α × β → γ) (l1 : List α) (l2 : List β)
    (j : Nat) (a : α) (b : β) (h1 : j < l1.length) (h2 : j < l2.length) :
    ((l1.zip l2).map f).get? j = some (f (l1.getD j a, l2.getD j b)) := by
  induction l1 generalizing l2 j with
  | nil => simp at h1
  | cons x t ih =>
      cases l2 with
      | nil => simp at h2
      | cons y s =>
          cases j with
          | zero => rfl
          | succ j =>
              have h1' : j < t.length := Nat.lt_of_succ_lt_succ h1
              have h2' : j < s.length := Nat.lt_of_succ_lt_succ h2
              simpa [List.zip_cons_cons] using ih s j h1' h2'

theorem containsS_iff (l : List String) (a : String) : l.contains a = true ↔ a ∈ l :=
  ⟨fun h => List.elem_iff.mp h, fun h => List.elem_iff.mpr h⟩

theorem expandCols_cons (defR : String) (k : Nat) (c : Col) (rest : List Col) :
    expandCols defR k (c :: rest) =
      if c.subject = "" then expandCols defR (k + 1) rest
      else
        let room := c.override.getD defR
        if isTwoHour c.subject then
          match rest with
          | [] => [(k, c.subject, room)]
          | c2 :: rest2 =>
              if c2.subject = "" then
                (k, c.subject, room) :: (k + 1, c.subject, c2.override.getD room) ::
                  expandCols defR (k + 2) rest2
              else (k, c.subject, room) :: expandCols defR (k + 1) (c2 :: rest2)
        else (k, c.subject, room) :: expandCols defR (k + 1) rest := by
  rw [expandCols.eq_def]

theorem expandCols_cons_blank (defR : String) (k : Nat) (rest : List Col) :
    expandCols defR k (blankCol :: rest) = expandCols defR (k + 1) rest := by
  rw [expandCols_cons]
  rfl

theorem expandCols_blanks (defR : String) (q : Nat) : ∀ k : Nat,
    expandCols defR k (List.replicate q blankCol) = [] := by
  induction q with
  | zero => intro k; rfl
  | succ n ih =>
      intro k
      rw [List.replicate_succ, expandCols_cons_blank]
      exact ih (k + 1)

theorem expandCols_shift (defR : String) (p : Nat) (rest : List Col) : ∀ k : Nat,
    expandCols defR k (List.replicate p blankCol ++ rest) =
      expandCols defR (k + p) rest := by
  induction p with
  | zero => intro k; simp
  | succ n ih =>
      intro k
      rw [List.replicate_succ, List.cons_append, expandCols_cons_blank, ih (k + 1)]
      congr 1
      omega

theorem saveSection_department (st : St) : (saveSection st).department = st.department := by
  unfold saveSection; split <;> rfl

theorem saveSection_defaultRoom (st : St) : (saveSection st).defaultRoom = st.defaultRoom := by
  unfold saveSection; split <;> rfl

theorem saveSection_rooms (st : St) : (saveSection st).rooms = st.rooms := by
  unfold saveSection; split <;> rfl

theorem saveSection_inSection (st : St) : (saveSection st).inSection = st.inSection := by
  unfold saveSection; split <;> rfl

theorem saveSection_sectionId (st : St) : (saveSection st).sectionId = st.sectionId := by
  unfold saveSection; split <;> rfl

/-! ### Claim theorems -/

/-- Claim C9: the parser is a pure deterministic function of its input: two
runs of `parsePdf` on the same text yield the same section list.  In this
embedding the parser is a total function with no state outside its
arguments, so determinism holds definitionally. -/
theorem parser_deterministic (text : String) : parsePdf text = parsePdf text := rfl

/-- Claim C3: in line mode the flat ordered list of `{subject, room}` pairs
accumulated for a day row is zipped positionally onto the six canonical
time slots: the pair at index `j` becomes the entry at the `j`-th canonical
slot, and pairs at index 6 or beyond produce no entry. -/
theorem day_row_positional_zip (day : String) (ses : List SlotPair) (j : Nat) :
    (mapDaySlots day ses).length = min 6 ses.length ∧
    (j < ses.length → j < 6 →
      (mapDaySlots day ses).get? j =
        some ⟨day, timeSlots.getD j "", (ses.getD j ⟨"", ""⟩).room,
              (ses.getD j ⟨"", ""⟩).subject⟩) ∧
    (6 ≤ j → (mapDaySlots day ses).get? j = none) := by
  refine ⟨?_, ?_, ?_⟩
  · simp [mapDaySlots, List.length_zip, timeSlots]
  · intro h1 h2
    have h2' : j < timeSlots.length := by
      have : timeSlots.length = 6 := rfl
      omega
    simpa [mapDaySlots] using
      zip_map_get (fun p => Entry.mk day p.1 p.2.room p.2.subject) timeSlots ses j
        "" ⟨"", ""⟩ h2' h1
  · intro h
    apply List.get?_eq_none.mpr
    have hlen : (mapDaySlots day ses).length = min 6 ses.length := by
      simp [mapDaySlots, List.length_zip, timeSlots]
    omega

/-- Witness for C3 at a concrete day row. -/
theorem day_row_positional_zip_w :
    (mapDaySlots "Monday" [⟨"CN", "322"⟩, ⟨"SE", "605"⟩]).get? 1 =
      some ⟨"Monday", "09:55-10:50", "605", "SE"⟩ :=
  (day_row_positional_zip "Monday" [⟨"CN", "322"⟩, ⟨"SE", "605"⟩] 1).2.1
    (by decide) (by decide)

/-- Claim C4: a collected day line consisting solely of a room reference
`(R.No.N)` replaces the room of the immediately preceding pair of the
accumulated list and never appends a new pair; the number of pairs is
unchanged. -/
theorem pure_room_line_overrides (defR : String) (ses : List SlotPair)
    (rooms : List String) (dl r : String) (h : pureRoomF dl = some r) :
    (classifyDayLine defR (ses, rooms) dl).1 = setLastRoom ses r ∧
    (classifyDayLine defR (ses, rooms) dl).1.length = ses.length ∧
    ∀ init p, ses = init ++ [p] →
      (classifyDayLine defR (ses, rooms) dl).1 = init ++ [⟨p.subject, r⟩] := by
  have hcl : (classifyDayLine defR (ses, rooms) dl).1 = setLastRoom ses r := by
    unfold classifyDayLine
    rw [h]
    cases ses with
    | nil => rfl
    | cons a t => simp [setLastRoom]
  refine ⟨hcl, ?_, ?_⟩
  · rw [hcl]; exact setLastRoom_length ses r
  · intro init p hp
    rw [hcl, hp]; exact setLastRoom_append init p r

/-- Witness for C4 at a concrete room-only line. -/
theorem pure_room_line_overrides_w :
    (classifyDayLine "322" ([⟨"CN", "322"⟩, ⟨"MS", "322"⟩], ["322"]) "(R.No.605)").1 =
      [⟨"CN", "322"⟩] ++ [⟨"MS", "605"⟩] :=
  (pure_room_line_overrides "322" [⟨"CN", "322"⟩, ⟨"MS", "322"⟩] ["322"]
    "(R.No.605)" "605" (by decide)).2.2 [⟨"CN", "322"⟩] ⟨"MS", "322"⟩ rfl

/-- Claim C10: a line beginning with a day code, processed while the default
room is still empty (and not captured by an earlier header pattern), is
skipped entirely: the state and the remaining line stream are unchanged, so
it contributes zero entries. -/
theorem day_row_requires_default_room (st : St) (l : String) (rest : List String)
    (hday : (dayPfxF l).isSome = true) (hdef : st.defaultRoom = "")
    (hd : deptMatchF l = none) (hs : semMatchF l = none)
    (hr : roomHeaderF l = none) :
    step st l rest = (st, rest) := by
  unfold step
  simp only [hd, hs, hr]
  split
  · rfl
  · cases hpx : dayPfxF l with
    | none => rfl
    | some d => simp [hdef]

/-- Witness for C10: a day row before any `Room No:` line. -/
theorem day_row_requires_default_room_w :
    step initSt "MON CP" [] = (initSt, []) :=
  day_row_requires_default_room initSt "MON CP" [] (by decide) rfl
    (by decide) (by decide) (by decide)

/-- Claim C2: for every day and wall-clock range, a room is returned free
iff it appears in zero schedule entries across all slots overlapping the
range for that day; and on the spec's worked example the slots overlapping
`11:10`-`01:00` (hour 1 read as 13) are slots 3 and 4, room 101 is not
free, and an unoccupied room is free.  (The range-based free-room query is
modelled from the spec; the checked-in endpoint only matches one exact
slot.) -/
theorem free_rooms_overlap_query :
    (∀ (day tFrom tTo r : String) (allRooms : List String) (entries : List Entry),
      r ∈ freeRoomsQ day tFrom tTo allRooms entries ↔
        r ∈ allRooms ∧ ∀ s ∈ overlapSlots tFrom tTo, ∀ e ∈ entries,
          ¬(e.day = day ∧ e.time_slot = s ∧ e.room_number = r)) ∧
    overlapSlots "11:10" "01:00" = ["11:10-12:05", "12:05-01:00"] ∧
    freeRoomsQ "Monday" "11:10" "01:00" ["101", "202"]
      [⟨"Monday", "11:10-12:05", "101", "X"⟩, ⟨"Monday", "12:05-01:00", "101", "Y"⟩] =
      ["202"] := by
  refine ⟨?_, by decide, by decide⟩
  intro day tFrom tTo r allRooms entries
  unfold freeRoomsQ
  rw [List.mem_filter]
  constructor
  · rintro ⟨hmem, hnc⟩
    refine ⟨hmem, fun s hs e he hc => ?_⟩
    rcases hc with ⟨h1, h2, h3⟩
    have hin : r ∈ occupiedRooms day tFrom tTo entries := by
      unfold occupiedRooms
      refine List.mem_map.mpr ⟨e, List.mem_filter.mpr ⟨he, ?_⟩, h3⟩
      rw [Bool.and_eq_true]
      exact ⟨beq_iff_eq.mpr h1, (containsS_iff _ _).mpr (h2 ▸ hs)⟩
    rw [Bool.not_eq_true'] at hnc
    have hct := (containsS_iff _ _).mpr hin
    rw [hnc] at hct
    exact Bool.false_ne_true hct
  · rintro ⟨hmem, hall⟩
    refine ⟨hmem, ?_⟩
    rw [Bool.not_eq_true']
    cases hc : (occupiedRooms day tFrom tTo entries).contains r with
    | false => rfl
    | true =>
        exfalso
        have hin := (containsS_iff _ _).mp hc
        unfold occupiedRooms at hin
        rcases List.mem_map.mp hin with ⟨e, hef, hrm⟩
        rcases List.mem_filter.mp hef with ⟨he, hq⟩
        rw [Bool.and_eq_true] at hq
        rcases hq with ⟨hd, hts⟩
        exact hall e.time_slot ((containsS_iff _ _).mp hts) e he
          ⟨beq_iff_eq.mp hd, rfl, hrm⟩

/-- Claim C5: in geometry mode, a day row whose single occupied column holds
a 2-hour subject (whole-word `LAB`, or exactly `QAVA` or `CP`) with an
empty next column yields exactly two entries with the same subject at
consecutive canonical slots, the second taking the next column's own room
override if present, else the first entry's room.  (Modelled from the spec;
the geometry-mode mapper is not in the checked-in sources.) -/
theorem two_hour_span_duplication (day defR : String) (p q : Nat) (c d2 : Col)
    (ts1 ts2 : String) (h1 : c.subject ≠ "") (h2 : isTwoHour c.subject = true)
    (h3 : d2.subject = "") (h4 : timeSlots[p]? = some ts1)
    (h5 : timeSlots[p + 1]? = some ts2) :
    geomEntries day defR
      (List.replicate p blankCol ++ c :: d2 :: List.replicate q blankCol) =
      [⟨day, ts1, c.override.getD defR, c.subject⟩,
       ⟨day, ts2, d2.override.getD (c.override.getD defR), c.subject⟩] := by
  unfold geomEntries
  rw [expandCols_shift defR p (c :: d2 :: List.replicate q blankCol) 0, expandCols_cons,
      if_neg h1, if_pos h2]
  simp [h3, expandCols_blanks defR q, List.filterMap, h4, h5, Nat.zero_add]

/-- Witness for C5 at the spec's `DSP LAB` example. -/
theorem two_hour_span_duplication_w :
    geomEntries "Monday" "322"
      [⟨"DSP LAB", none⟩, blankCol, blankCol, blankCol, blankCol, blankCol] =
      [⟨"Monday", "09:00-09:55", "322", "DSP LAB"⟩,
       ⟨"Monday", "09:55-10:50", "322", "DSP LAB"⟩] := by
  have h := two_hour_span_duplication "Monday" "322" 0 4 ⟨"DSP LAB", none⟩ blankCol
    "09:00-09:55" "09:55-10:50" (by decide) (by decide) rfl rfl rfl
  simpa using h

/-- Claim C6: the header recognizer extracts a year_sem and section from
each of the spec's format families, trying them in the stated order with
first match winning; in particular a page matching both the bracketed form
and the generic fallback resolves via the bracketed form.  (Modelled from
the spec; the checked-in parser only implements the bracketed regex.) -/
theorem header_families_priority :
    headerRecognize "ME" "DEPARTMENT OF CSE IV SEMESTER [SECTION-A1] Room No: 322" =
        some ("IV Semester", "A1") ∧
    headerRecognize "X" "VI SEMESTER (SECTION-01)" = some ("VI Semester", "01") ∧
    headerRecognize "X" "VI Semester (DS-1)" = some ("VI Semester", "DS-1") ∧
    headerRecognize "X" "IV Sem - Section - 1" = some ("IV Semester", "1") ∧
    headerRecognize "X" "B.Tech VI Semester Section-B2" = some ("VI Semester", "B2") ∧
    headerRecognize "ME" "[ IV SEMESTER ]" = some ("IV Semester", "ME-1") ∧
    headerRecognize "X" "III Sem 2" = some ("III Semester", "2") ∧
    headerRecognize "X" "I V SEMESTER [SECTION-A1]" = some ("IV Semester", "A1") ∧
    headerRecognize "X" "IV SEMESTER [SECTION-A1] 7" = some ("IV Semester", "A1") ∧
    hdrGeneric (hdrTokens "IV SEMESTER [SECTION-A1] 7") = some ("IV Semester", "7") := by
  set_option maxRecDepth 8000 in decide

theorem saveSection_entries (st : St) : (saveSection st).entries = [] := by
  unfold saveSection; split <;> rfl

theorem processDay_department (st : St) (day ro : String) (dls : List String) :
    (processDay st day ro dls).department = st.department := rfl

theorem processDay_defaultRoom (st : St) (day ro : String) (dls : List String) :
    (processDay st day ro dls).defaultRoom = st.defaultRoom := rfl

theorem processDay_sectionId (st : St) (day ro : String) (dls : List String) :
    (processDay st day ro dls).sectionId = st.sectionId := rfl

theorem processDay_inSection (st : St) (day ro : String) (dls : List String) :
    (processDay st day ro dls).inSection = st.inSection := rfl

theorem processDay_sections (st : St) (day ro : String) (dls : List String) :
    (processDay st day ro dls).sections = st.sections := rfl

theorem processDay_yearSem (st : St) (day ro : String) (dls : List String) :
    (processDay st day ro dls).yearSem = st.yearSem := rfl

/-- Claim C8: the current department persists unchanged until a new
`DEPARTMENT OF` line overwrites it; the current default room persists
unchanged until a new `Room No:` line overwrites it; and a matching
semester/section header flushes the in-progress section and resets
year_sem/section to the newly matched values while leaving department and
default_room unchanged. -/
theorem parser_state_frame :
    (∀ (st : St) (l : String) (rest : List String), deptMatchF l = none →
      (step st l rest).1.department = st.department) ∧
    (∀ (st : St) (l : String) (rest : List String) (d : String),
      deptMatchF l = some d → (step st l rest).1.department = d) ∧
    (∀ (st : St) (l : String) (rest : List String), roomHeaderF l = none →
      (step st l rest).1.defaultRoom = st.defaultRoom) ∧
    (∀ (st : St) (l : String) (rest : List String) (r : String),
      deptMatchF l = none → semMatchF l = none → roomHeaderF l = some r →
      (step st l rest).1.defaultRoom = r) ∧
    (∀ (st : St) (l : String) (rest : List String) (g : String × String),
      deptMatchF l = none → semMatchF l = some g →
      (step st l rest).1.sections = (saveSection st).sections ∧
      (step st l rest).1.yearSem = trimS g.1 ++ " Semester" ∧
      (step st l rest).1.sectionId = trimS g.2 ∧
      (step st l rest).1.inSection = true ∧
      (step st l rest).1.entries = [] ∧
      (step st l rest).1.department = st.department ∧
      (step st l rest).1.defaultRoom = st.defaultRoom) := by
  refine ⟨?_, ?_, ?_, ?_, ?_⟩
  · intro st l rest hd
    cases hs : semMatchF l with
    | some g =>
        unfold step
        simp only [hd, hs]
        exact saveSection_department st
    | none =>
        cases hr : roomHeaderF l with
        | some r =>
            unfold step
            simp only [hd, hs, hr]
        | none =>
            unfold step
            simp only [hd, hs, hr]
            split
            · rfl
            · cases hp : dayPfxF l with
              | none => simp only [hp]
              | some d =>
                  simp only [hp]
                  split
                  · rfl
                  · exact processDay_department st d.1 d.2 (dayTake rest).1
  · intro st l rest d hd
    unfold step
    simp only [hd]
  · intro st l rest hr
    cases hd : deptMatchF l with
    | some d =>
        unfold step
        simp only [hd]
        exact saveSection_defaultRoom st
    | none =>
        cases hs : semMatchF l with
        | some g =>
            unfold step
            simp only [hd, hs]
            exact saveSection_defaultRoom st
        | none =>
            unfold step
            simp only [hd, hs, hr]
            split
            · rfl
            · cases hp : dayPfxF l with
              | none => simp only [hp]
              | some d =>
                  simp only [hp]
                  split
                  · rfl
                  · exact processDay_defaultRoom st d.1 d.2 (dayTake rest).1
  · intro st l rest r hd hs hr
    unfold step
    simp only [hd, hs, hr]
  · intro st l rest g hd hs
    unfold step
    simp [hd, hs, saveSection_entries, saveSection_department, saveSection_defaultRoom]

/-- Witness for C8: a semester header resets section and year_sem while
flushing, at a concrete state. -/
theorem parser_state_frame_w :
    (step initSt "IV SEMESTER [SECTION-A1]" []).1.sectionId = trimS "A1" :=
  (parser_state_frame.2.2.2.2 initSt "IV SEMESTER [SECTION-A1]" [] ("IV", "A1")
    (by decide) (by decide)).2.2.1

theorem dayTake_cons (n : String) (ns : List String) :
    dayTake (n :: ns) =
      if isDayStop n then ([], n :: ns)
      else ((if isSkipWord n then (dayTake ns).1 else n :: (dayTake ns).1),
            (dayTake ns).2) := by
  rw [dayTake.eq_def]

theorem dayTake_sub : ∀ (ns : List String) (x : String), x ∈ (dayTake ns).2 → x ∈ ns := by
  intro ns
  induction ns with
  | nil => intro x hx; simp [dayTake] at hx
  | cons n t ih =>
      intro x hx
      rw [dayTake_cons] at hx
      by_cases hstop : isDayStop n
      · rw [if_pos hstop] at hx
        exact hx
      · rw [if_neg hstop] at hx
        exact List.mem_cons_of_mem n (ih x hx)

theorem step_snd_cases (st : St) (l : String) (rest : List String) :
    (step st l rest).2 = rest ∨ (step st l rest).2 = (dayTake rest).2 := by
  cases hd : deptMatchF l with
  | some d => unfold step; simp [hd]
  | none =>
    cases hs : semMatchF l with
    | some g => unfold step; simp [hd, hs]
    | none =>
      cases hr : roomHeaderF l with
      | some r => unfold step; simp [hd, hs, hr]
      | none =>
          unfold step; simp only [hd, hs, hr]
          split
          · simp
          · cases hp : dayPfxF l with
            | none => simp [hp]
            | some d =>
                simp only [hp]
                split
                · simp
                · simp

theorem step_snd_sub (st : St) (l : String) (rest : List String) (x : String)
    (hx : x ∈ (step st l rest).2) : x ∈ rest := by
  rcases step_snd_cases st l rest with h | h
  · rw [h] at hx; exact hx
  · rw [h] at hx; exact dayTake_sub rest x hx

theorem saveSection_capture (st : St) (r : String) (hr : r ∈ st.rooms) :
    ∀ S ∈ (saveSection st).sections, S ∈ st.sections ∨ r ∈ S.rooms := by
  intro S hS
  unfold saveSection at hS
  split at hS
  · rcases List.mem_append.mp hS with h | h
    · exact Or.inl h
    · right
      rw [List.mem_singleton.mp h]
      exact hr
  · exact Or.inl hS

theorem step_rooms_capture (st : St) (l : String) (rest : List String) (r : String)
    (hd : deptMatchF l = none) (hr : r ∈ st.rooms) :
    r ∈ (step st l rest).1.rooms ∧
    ∀ S ∈ (step st l rest).1.sections, S ∈ st.sections ∨ r ∈ S.rooms := by
  cases hs : semMatchF l with
  | some g =>
      unfold step
      simp only [hd, hs]
      constructor
      · rw [saveSection_rooms]; exact hr
      · exact saveSection_capture st r hr
  | none =>
    cases hrm : roomHeaderF l with
    | some r2 =>
        unfold step
        simp only [hd, hs, hrm]
        exact ⟨mem_addRoom _ _ _ hr, fun S hS => Or.inl hS⟩
    | none =>
        unfold step
        simp only [hd, hs, hrm]
        split
        · exact ⟨hr, fun S hS => Or.inl hS⟩
        · cases hp : dayPfxF l with
          | none => simp only [hp]; exact ⟨hr, fun S hS => Or.inl hS⟩
          | some d =>
              simp only [hp]
              split
              · exact ⟨hr, fun S hS => Or.inl hS⟩
              · constructor
                · simpa [processDay] using
                    foldl_classify_rooms_mono st.defaultRoom
                      ((if d.2 = "" then [] else [d.2]) ++ (dayTake rest).1)
                      ([], st.rooms) r hr
                · intro S hS
                  rw [processDay_sections] at hS
                  exact Or.inl hS

theorem runF_zero (st : St) (ls : List String) : runF 0 st ls = st := by
  rw [runF.eq_def]

theorem runF_nil (f : Nat) (st : St) : runF f st [] = st := by
  cases f with
  | zero => exact runF_zero st []
  | succ n => rw [runF.eq_def]

theorem runF_succ_cons (f : Nat) (st : St) (l : String) (rest : List String) :
    runF (f + 1) st (l :: rest) = runF f (step st l rest).1 (step st l rest).2 := by
  rw [runF.eq_def]

theorem runF_capture (f : Nat) : ∀ (st : St) (ls : List String) (r : String),
    r ∈ st.rooms → (∀ l ∈ ls, deptMatchF l = none) →
    r ∈ (runF f st ls).rooms ∧
    ∀ S ∈ (runF f st ls).sections, S ∈ st.sections ∨ r ∈ S.rooms := by
  induction f with
  | zero =>
      intro st ls r hr _
      rw [runF_zero]
      exact ⟨hr, fun S hS => Or.inl hS⟩
  | succ n ih =>
      intro st ls r hr hnd
      cases ls with
      | nil =>
          rw [runF_nil]
          exact ⟨hr, fun S hS => Or.inl hS⟩
      | cons l rest =>
          rw [runF_succ_cons]
          have hd := hnd l (List.mem_cons_self l rest)
          have hstep := step_rooms_capture st l rest r hd hr
          have hnd' : ∀ x ∈ (step st l rest).2, deptMatchF x = none := fun x hx =>
            hnd x (List.mem_cons_of_mem l (step_snd_sub st l rest x hx))
          have hrec := ih (step st l rest).1 (step st l rest).2 r hstep.1 hnd'
          refine ⟨hrec.1, fun S hS => ?_⟩
          rcases hrec.2 S hS with h | h
          · exact hstep.2 S h
          · exact Or.inr h

theorem InvSt_congr (st st' : St) (h1 : st'.inSection = st.inSection)
    (h2 : st'.sectionId = st.sectionId) (h3 : st'.sections = st.sections)
    (h : InvSt st) : InvSt st' := by
  constructor
  · intro hin
    rw [h2]
    exact h.1 (h1 ▸ hin)
  · intro S hS
    exact h.2 S (h3 ▸ hS)

theorem saveSection_inv (st : St) (h : InvSt st) : InvSt (saveSection st) := by
  obtain ⟨h1, h2⟩ := h
  unfold saveSection
  split
  · rename_i hcond
    rw [Bool.and_eq_true] at hcond
    obtain ⟨hin, hne⟩ := hcond
    constructor
    · intro hh
      exact h1 hh
    · intro S hS
      rcases List.mem_append.mp hS with h | h
      · exact h2 S h
      · rw [List.mem_singleton.mp h]
        refine ⟨h1 hin, fun hemp => ?_⟩
        rw [Bool.not_eq_true'] at hne
        have hie : st.entries.isEmpty = true := by
          have he : st.entries = [] := hemp
          rw [he]
          rfl
        rw [hie] at hne
        simp at hne
  · exact ⟨h1, h2⟩

theorem step_inv (st : St) (l : String) (rest : List String) (h : InvSt st) :
    InvSt (step st l rest).1 := by
  cases hd : deptMatchF l with
  | some d =>
      unfold step
      simp only [hd]
      have hsv := saveSection_inv st h
      constructor
      · intro hin
        simp at hin
      · intro S hS
        exact hsv.2 S hS
  | none =>
    cases hsem : semMatchF l with
    | some g =>
        unfold step
        simp only [hd, hsem]
        have hsv := saveSection_inv st h
        constructor
        · intro _
          exact semMatchF_sec_ne l g hsem
        · intro S hS
          exact hsv.2 S hS
    | none =>
      cases hr : roomHeaderF l with
      | some r =>
          unfold step
          simp only [hd, hsem, hr]
          exact InvSt_congr st _ rfl rfl rfl h
      | none =>
          unfold step
          simp only [hd, hsem, hr]
          split
          · exact h
          · cases hp : dayPfxF l with
            | none => simp only [hp]; exact h
            | some d =>
                simp only [hp]
                split
                · exact h
                · exact InvSt_congr st _ (processDay_inSection st d.1 d.2 _)
                    (processDay_sectionId st d.1 d.2 _)
                    (processDay_sections st d.1 d.2 _) h

theorem runF_inv (f : Nat) : ∀ (st : St) (ls : List String),
    InvSt st → InvSt (runF f st ls) := by
  induction f with
  | zero =>
      intro st ls h
      rw [runF_zero]
      exact h
  | succ n ih =>
      intro st ls h
      cases ls with
      | nil =>
          rw [runF_nil]
          exact h
      | cons l rest =>
          rw [runF_succ_cons]
          exact ih _ _ (step_inv st l rest h)

/-- Claim C1: every Section emitted by `parsePdf` has a non-empty section
identifier and a non-empty entries list; pages without a recognized header
or without extracted entries never contribute a Section. -/
theorem sections_nonempty_invariant (text : String) (S : Section)
    (h : S ∈ parsePdf text) : S.sectionId ≠ "" ∧ S.entries ≠ [] := by
  have hinit : InvSt initSt :=
    ⟨fun hh => by simp [initSt] at hh, fun S hS => by simp [initSt] at hS⟩
  unfold parsePdf at h
  exact (saveSection_inv _ (runF_inv _ _ _ hinit)).2 S h

/-- Witness for C1 at a concrete parsed document. -/
theorem sections_nonempty_invariant_w :
    (⟨"CSE", "IV Semester", "A1", "322", ["322"],
      [⟨"Monday", "09:00-09:55", "322", "CP"⟩]⟩ : Section).sectionId ≠ "" ∧
    (⟨"CSE", "IV Semester", "A1", "322", ["322"],
      [⟨"Monday", "09:00-09:55", "322", "CP"⟩]⟩ : Section).entries ≠ [] :=
  sections_nonempty_invariant
    "DEPARTMENT OF CSE\nIV SEMESTER [SECTION-A1]\nRoom No: 322\nMON CP"
    ⟨"CSE", "IV Semester", "A1", "322", ["322"],
      [⟨"Monday", "09:00-09:55", "322", "CP"⟩]⟩ (by decide)

/-- Counterexample to C7 as stated: on this input the page default room
`100` is encountered by the parser (via the `Room No: 100` line) and used
as the room of the emitted section's only entry, yet the emitted section's
rooms set is empty: the department header that followed reset the rooms
set while the default room persisted. -/
theorem room_set_counterexample :
    parsePdf "Room No: 100\nDEPARTMENT OF CSE\nIV SEMESTER [SECTION-A1]\nMON CP" =
      [⟨"CSE", "IV Semester", "A1", "100", [],
        [⟨"Monday", "09:00-09:55", "100", "CP"⟩]⟩] := by
  decide

/-- Claim C7 (amended): a room number matched by a `Room No:` header is in
the parser's rooms set immediately after its encounter; the rooms set is
cleared only by a department header, so as long as no department line
follows, an encountered room appears in the rooms set of every section
flushed afterwards (including the final save); and at storage time a room
matching `/lab/i` is recorded with room_type `lab`, every other room with
room_type `classroom`. -/
theorem room_set_capture_amended :
    (∀ (st : St) (l : String) (rest : List String) (r : String),
      deptMatchF l = none → semMatchF l = none → roomHeaderF l = some r →
      r ∈ (step st l rest).1.rooms) ∧
    (∀ (f : Nat) (st : St) (ls : List String) (r : String), r ∈ st.rooms →
      (∀ l ∈ ls, deptMatchF l = none) →
      r ∈ (runF f st ls).rooms ∧
      ∀ S ∈ (runF f st ls).sections, S ∈ st.sections ∨ r ∈ S.rooms) ∧
    (∀ (st : St) (r : String), r ∈ st.rooms →
      ∀ S ∈ (saveSection st).sections, S ∈ st.sections ∨ r ∈ S.rooms) ∧
    (∀ room : String, labTest room = true → roomType room = "lab") ∧
    (∀ room : String, labTest room = false → roomType room = "classroom") := by
  refine ⟨?_, ?_, ?_, ?_, ?_⟩
  · intro st l rest r hd hs hr
    unfold step
    simp only [hd, hs, hr]
    exact self_mem_addRoom st.rooms r
  · exact fun f => runF_capture f
  · exact saveSection_capture
  · intro room h
    unfold roomType
    rw [if_pos h]
  · intro room h
    unfold roomType
    rw [if_neg (by rw [h]; exact Bool.false_ne_true)]

/-- Witness for the amended C7: a concrete `Room No:` line adds its room,
and the storage typing rule at two concrete rooms. -/
theorem room_set_capture_amended_w :
    "12" ∈ (step initSt "Room No: 12" []).1.rooms ∧
    roomType "LAB1" = "lab" ∧ roomType "605" = "classroom" :=
  ⟨room_set_capture_amended.1 initSt "Room No: 12" [] "12"
      (by decide) (by decide) (by decide),
   room_set_capture_amended.2.2.2.1 "LAB1" (by decide),
   room_set_capture_amended.2.2.2.2 "605" (by decide)⟩

end EventRoomScheduler
